import Mathlib

/-!
Shallow embedding of `src/index.js` of the jamments-front library.

JS strings are modelled as Lean `String` / `List Char`.  Machine-level JS
values that the claims touch are modelled as follows:

* a fetched comment record is a `CommentRec`; `submitted_at` holds the epoch
  value of `new Date(c.submitted_at)` (the claims only compare timestamps, so
  a `Nat` key is enough; invalid date strings are out of scope);
* `parent_id = none` models a `null`/`undefined` parent; JS truthiness of
  `comment.parent_id` also treats the empty string as false (`parentTruthy`);
* the per-instance object `this.commentsHash` is an association list whose
  most recent binding shadows older ones, exactly like JS property assignment;
* `Array.prototype.sort(comparefn)` of ECMAScript engines is a stable TimSort:
  a later element `b` is placed in front of an earlier element `a` exactly when
  `comparefn(b, a) < 0`.  We model it as the stable insertion sort with the
  induced keep-in-order relation `engineLe a b := ¬ comparefn b a < 0`.
-/

/-- A flat comment record as fetched from `{endpoint}/{cachedFilesURI}/{slug}.json`. -/
structure CommentRec where
  id : String
  parent_id : Option String
  submitted_at : Nat
deriving DecidableEq, Inhabited

/-- JS truthiness of `comment.parent_id` (the guard `if (!comment.parent_id) return;`):
`null`/`undefined` and the empty string are falsy. -/
def parentTruthy (c : CommentRec) : Bool :=
  match c.parent_id with
  | none => false
  | some p => p != ""

/-- The property key `comment.parent_id` used in `this.commentsHash[comment.parent_id]`. -/
def parentKey (c : CommentRec) : String := c.parent_id.getD ""

/-- The source comparator of `getComments`:
`(a, b) => { if (new Date(a.submitted_at) < new Date(b.submitted_at)) return -1; return 1; }`. -/
def jsCmp (a b : CommentRec) : Int :=
  if a.submitted_at < b.submitted_at then -1 else 1

/-- Keep-in-order relation induced by the comparator under a stable engine sort:
an earlier element `a` stays in front of a later element `b`
unless `jsCmp b a < 0`. -/
def engineLe (a b : CommentRec) : Prop := ¬ jsCmp b a < 0

instance : DecidableRel engineLe := fun a b => by
  unfold engineLe
  exact inferInstance

/-- `comments.sort((a, b) => ...)` modelled as the stable sort for `engineLe`. -/
def sortComments (l : List CommentRec) : List CommentRec :=
  l.insertionSort engineLe

/-- The `this.commentsHash` object: an association list, newest binding first. -/
abbrev CHash := List (String × CommentRec)

/-- The first `forEach` of `getComments`:
`comments.forEach((c) => { this.commentsHash[c.id] = Object.assign(c, { children: [] }); })`.
Each assignment adds a binding that shadows any older binding of the same id. -/
def hashInsertAll (h : CHash) (cs : List CommentRec) : CHash :=
  (cs.map fun c => (c.id, c)).reverse ++ h

/-- Property read `this.commentsHash[k]`: the most recent binding of key `k`. -/
def hashLookup (h : CHash) (k : String) : Option CommentRec :=
  (h.find? fun e => e.1 == k).map fun e => e.2

/-- The comments hash after the first `forEach` of a `getComments` call that started
with hash `h` and fetched `input`. -/
def afterHash (h : CHash) (input : List CommentRec) : CHash :=
  hashInsertAll h (sortComments input)

/-- The second `forEach` throws a `TypeError` when `this.commentsHash[comment.parent_id]`
is `undefined`; `noDangling` is true exactly when every push target exists. -/
def noDangling (h : CHash) (input : List CommentRec) : Bool :=
  (sortComments input).all fun c =>
    !parentTruthy c || (hashLookup (afterHash h input) (parentKey c)).isSome

/-- The returned root forest:
`comments.reduce((acc, curr) => { if (!curr.parent_id) acc.push(curr); return acc; }, [])`. -/
def rootsOf (sorted : List CommentRec) : List CommentRec :=
  sorted.filter fun c => !parentTruthy c

/-- The `children` array accumulated on the comment object registered under id `i`:
the second `forEach` pushes, in sorted order, every comment whose truthy
`parent_id` equals `i`. -/
def childrenOfId (sorted : List CommentRec) (i : String) : List CommentRec :=
  sorted.filter fun c => parentTruthy c && parentKey c == i

/-- The `.then` callback of `getComments`: sorts, indexes, links children, and returns
the root comments; `none` models the `TypeError` thrown on a dangling parent
reference (the promise rejection). -/
def getComments (h : CHash) (input : List CommentRec) : Option (CHash × List CommentRec) :=
  if noDangling h input then some (afterHash h input, rootsOf (sortComments input)) else none

/-- The comment object stored at position `j` of the sorted array (`default` when out
of range); positions identify the JS objects, which matters when two records share
an id. -/
def recAt (l : List CommentRec) (j : Nat) : CommentRec :=
  (l[j]?).getD default

/-- Positions of the sorted array that end up in the returned root forest. -/
def rootsPos (l : List CommentRec) : List Nat :=
  (List.range l.length).filter fun k => !parentTruthy (recAt l k)

/-- The position whose object is registered in the hash under id `i`: the last
assignment `this.commentsHash[c.id] = c` wins. -/
def lastOccIdx (l : List CommentRec) (i : String) : Option Nat :=
  ((List.range l.length).filter fun k => (recAt l k).id == i).getLast?

/-- Positions pushed into the `children` array of the object at position `o`: only the
object that owns the hash binding of its id receives pushes. -/
def childPos (l : List CommentRec) (o : Nat) : List Nat :=
  if lastOccIdx l (recAt l o).id = some o then
    (List.range l.length).filter fun k =>
      parentTruthy (recAt l k) && parentKey (recAt l k) == (recAt l o).id
  else []

/-- The hypothesis of the tree-shape claims: every non-null `parent_id` matches some
comment id of the same array. -/
def parentsResolve (input : List CommentRec) : Bool :=
  input.all fun c =>
    match c.parent_id with
    | none => true
    | some p => (input.map fun d => d.id).contains p

/-- Input records decorated with their positions, used to state stability. -/
def decorate : List CommentRec → Nat → List (CommentRec × Nat)
  | [], _ => []
  | c :: t, k => (c, k) :: decorate t (k + 1)

/-- Modelled from the spec: "Sort the full input sequence by submission timestamp
ascending; ties broken by stable input order" — the lexicographic
(timestamp, input position) order on decorated records. -/
def specLe (p q : CommentRec × Nat) : Prop :=
  p.1.submitted_at < q.1.submitted_at ∨
    (p.1.submitted_at = q.1.submitted_at ∧ p.2 ≤ q.2)

instance : DecidableRel specLe := fun p q => by
  unfold specLe
  exact inferInstance

/-- Modelled from the spec: the chronologically ascending, stable reordering of the
input (sort the position-decorated records by `specLe`, then forget positions). -/
def specStableChrono (l : List CommentRec) : List CommentRec :=
  ((decorate l 0).insertionSort specLe).map Prod.fst

/-- The character set removed by `String.prototype.trim`:
ECMAScript WhiteSpace and LineTerminator code points. -/
def isJsSpace (c : Char) : Bool :=
  decide (c.toNat ∈ [9, 10, 11, 12, 13, 32, 160, 0x1680, 0x2000, 0x2001, 0x2002,
    0x2003, 0x2004, 0x2005, 0x2006, 0x2007, 0x2008, 0x2009, 0x200A, 0x2028,
    0x2029, 0x202F, 0x205F, 0x3000, 0xFEFF])

/-- `String.prototype.trim`. -/
def jsTrim (s : List Char) : List Char :=
  ((s.dropWhile isJsSpace).reverse.dropWhile isJsSpace).reverse

/-- The `^\/` branch of `.replace(/^\/|\/$/g, '')`: one leading slash, if present. -/
def dropLeadingSlash (s : List Char) : List Char :=
  match s with
  | '/' :: t => t
  | _ => s

/-- The `\/$` branch of `.replace(/^\/|\/$/g, '')`: one trailing slash, if present. -/
def dropTrailingSlash (s : List Char) : List Char :=
  match s.reverse with
  | '/' :: t => t.reverse
  | _ => s

/-- `.replace(/^\/|\/$/g, '')`: the alternation removes one leading slash and one
trailing slash (each if present; a lone slash is consumed by the first branch). -/
def stripEdgeSlashes (s : List Char) : List Char :=
  dropTrailingSlash (dropLeadingSlash s)

/-- `.replace(/\//g, '_')`. -/
def slashToUnderscore (s : List Char) : List Char :=
  s.map fun c => if c = '/' then '_' else c

/-- `cleanSlug` from the source:
`slug.toLowerCase().replace(/^\/|\/$/g, '').replace(/\//g, '_').trim()`.
`toLowerCase` is modelled by `Char.toLower` (the basic-latin case mapping). -/
def cleanSlugL (s : List Char) : List Char :=
  jsTrim (slashToUnderscore (stripEdgeSlashes (s.map Char.toLower)))

/-- String-level `cleanSlug`. -/
def cleanSlug (s : String) : String := ⟨cleanSlugL s.data⟩

/-- URL built by `getComments(slug)`. -/
def getCommentsUrl (endpoint cachedFilesURI slug : String) : String :=
  endpoint ++ "/" ++ cachedFilesURI ++ "/" ++ cleanSlug slug ++ ".json"

/-- The per-character replacement map of `escapeHtml`
(`'&' → "&amp;"`, `'<' → "&lt;"`, `'>' → "&gt;"`, `'"' → "&quot;"`, apostrophe → `"&#039;"`). -/
def escMap (c : Char) : List Char :=
  if c = '&' then "&amp;".data
  else if c = '<' then "&lt;".data
  else if c = '>' then "&gt;".data
  else if c = Char.ofNat 34 then "&quot;".data
  else if c = Char.ofNat 39 then "&#039;".data
  else [c]

/-- `text.replace(/[&<>"']/g, m => map[m])`: one left-to-right pass, each matched
character substituted independently, the output never rescanned. -/
def escapeHtmlL (s : List Char) : List Char := s.flatMap escMap

/-- String-level `Jamments.escapeHtml`. -/
def escapeHtml (s : String) : String := ⟨escapeHtmlL s.data⟩

/-- An HTTP response as the Fetch API exposes it to this library. -/
structure JsResponse where
  status : Nat
  bodyText : String
deriving DecidableEq

/-- `Response.ok` of the Fetch API: status in the inclusive range 200..299. -/
def resOk (r : JsResponse) : Bool := 200 ≤ r.status && r.status ≤ 299

/-- The settling logic of `ajax`:
`if (!res.ok) return res.text().then(msg => reject(msg)); return resolve();` —
non-2xx rejects with the raw body text, 2xx resolves with no payload. -/
def ajaxComplete (r : JsResponse) : Except String Unit :=
  if resOk r then Except.ok () else Except.error r.bodyText

/-- A request as assembled by the mutating operations (form-encoded field list in
object-key insertion order). -/
structure JsRequest where
  url : String
  method : String
  fields : List (String × String)
deriving DecidableEq

/-- `postComment(slug, comment, name, email, parentId)`. -/
def postCommentReq (endpoint slug comment name email parentId : String) : JsRequest :=
  ⟨endpoint ++ "/comment/", "POST",
   [("slug", slug), ("comment", comment), ("name", name), ("email", email),
    ("parent_id", parentId)]⟩

/-- `updateComment(commentId, secret, comment)`. -/
def updateCommentReq (endpoint commentId secret comment : String) : JsRequest :=
  ⟨endpoint ++ "/comment/" ++ commentId, "PATCH",
   [("comment", comment), ("user_secret", secret)]⟩

/-- `deleteComment(commentId, secret)`. -/
def deleteCommentReq (endpoint commentId secret : String) : JsRequest :=
  ⟨endpoint ++ "/comment/" ++ commentId, "DELETE", [("user_secret", secret)]⟩

/-- `validateComment(commentId, secret)`. -/
def validateCommentReq (endpoint commentId secret : String) : JsRequest :=
  ⟨endpoint ++ "/comment/validate/" ++ commentId ++ "/", "POST",
   [("user_secret", secret)]⟩

/-- `updateNewCommentsSubscription(articleId, userId, secret, subscribe)`;
the boolean is stringified by form encoding. -/
def updateNewCommentsSubscriptionReq (endpoint articleId userId secret : String)
    (subscribe : Bool) : JsRequest :=
  ⟨endpoint ++ "/notification/article/" ++ articleId ++ "/", "PATCH",
   [("subscribe", if subscribe then "true" else "false"), ("user_id", userId),
    ("user_secret", secret)]⟩

/-- Outcome of a mutating operation: `ajax(url, method, body)` sends the request and
settles the promise from the response alone. -/
def runMutating (req : JsRequest) (r : JsResponse) : Except String Unit :=
  ajaxComplete r

/-- The backtick character (written by code point to keep the file free of literal
backticks). -/
def btick : Char := Char.ofNat 96

/-- JS regex `.` without the `s` flag: any character except the line terminators
LF, CR, U+2028, U+2029. -/
def isDotChar (c : Char) : Bool :=
  !(c = '\n' || c = '\r' || c = Char.ofNat 0x2028 || c = Char.ofNat 0x2029)

/-- Lazy scan for `(.*?)` followed by the one-character delimiter `delim`: the group
length up to the nearest delimiter reachable through `.`-matchable characters. -/
def lazyClose (delim : Char) : List Char → Option Nat
  | [] => none
  | c :: t =>
    if c = delim then some 0
    else if isDotChar c then (lazyClose delim t).map (· + 1) else none

/-- Lazy scan for the closing `**` of `/\*\*(.*?)\*\*/`. -/
def boldClose : List Char → Option Nat
  | a :: b :: t =>
    if a = '*' ∧ b = '*' then some 0
    else if isDotChar a then (boldClose (b :: t)).map (· + 1) else none
  | _ => none

/-- Lazy scan for the closing fence of the codeblock regex
`/```([^]+?.*?[^]+?[^]+?)```/`: the group (three lazy any-character pieces around a
lazy dot piece) can be any string of length at least 3, explored in increasing
length, so the match closes at the first fence at group length `≥ 3`. -/
def cbClose : List Char → Nat → Option Nat
  | a :: b :: c :: t, g =>
    if a = btick ∧ b = btick ∧ c = btick ∧ 3 ≤ g then some g
    else cbClose (b :: c :: t) (g + 1)
  | _ :: t, g => cbClose t (g + 1)
  | [], _ => none

/-- Backtracking scan for `\[(.*?)\]\((.*?)\)` after the opening bracket: returns the
text-group and url-group lengths.  When a `](` candidate has no closing parenthesis
the lazy text group extends through it and the scan continues. -/
def linkScan : List Char → Option (Nat × Nat)
  | ']' :: '(' :: t =>
    (match lazyClose ')' t with
     | some j => some (0, j)
     | none => (linkScan ('(' :: t)).map fun p => (p.1 + 1, p.2))
  | c :: t => if isDotChar c then (linkScan t).map (fun p => (p.1 + 1, p.2)) else none
  | [] => none

/-- One global pass of
`.replace(codeblock, '<pre><code class="hljs">$1</code></pre>')`.
The fuel only bounds the number of scan steps; every step consumes at least one
input character, so `length + 1` fuel computes the full pass. -/
def cbAuxF : Nat → List Char → List Char
  | 0, s => s
  | _ + 1, [] => []
  | fuel + 1, a :: b :: c :: t =>
    if a = btick ∧ b = btick ∧ c = btick then
      match cbClose t 0 with
      | some g =>
        "<pre><code class=\"hljs\">".data ++ t.take g ++ "</code></pre>".data
          ++ cbAuxF fuel (t.drop (g + 3))
      | none => a :: cbAuxF fuel (b :: c :: t)
    else a :: cbAuxF fuel (b :: c :: t)
  | fuel + 1, a :: t => a :: cbAuxF fuel t

/-- One global pass of `.replace(/`(.*?)`/g, '<code>$1</code>')` (inline code). -/
def codeAuxF : Nat → List Char → List Char
  | 0, s => s
  | _ + 1, [] => []
  | fuel + 1, c :: t =>
    if c = btick then
      match lazyClose btick t with
      | some g =>
        "<code>".data ++ t.take g ++ "</code>".data ++ codeAuxF fuel (t.drop (g + 1))
      | none => c :: codeAuxF fuel t
    else c :: codeAuxF fuel t

/-- One global pass of `.replace(/\[(.*?)\]\((.*?)\)/g, '<a href="$2">$1</a>')`. -/
def linkAuxF : Nat → List Char → List Char
  | 0, s => s
  | _ + 1, [] => []
  | fuel + 1, c :: t =>
    if c = '[' then
      match linkScan t with
      | some (i, j) =>
        "<a href=\"".data ++ (t.drop (i + 2)).take j ++ "\">".data ++ t.take i
          ++ "</a>".data ++ linkAuxF fuel (t.drop (i + 2 + j + 1))
      | none => c :: linkAuxF fuel t
    else c :: linkAuxF fuel t

/-- One global pass of `.replace(/\*(.*?)\*/g, '<i>$1</i>')` (italics). -/
def italAuxF : Nat → List Char → List Char
  | 0, s => s
  | _ + 1, [] => []
  | fuel + 1, c :: t =>
    if c = '*' then
      match lazyClose '*' t with
      | some g =>
        "<i>".data ++ t.take g ++ "</i>".data ++ italAuxF fuel (t.drop (g + 1))
      | none => c :: italAuxF fuel t
    else c :: italAuxF fuel t

/-- One global pass of `.replace(/\*\*(.*?)\*\*/g, '<strong>$1</strong>')` (bold). -/
def boldAuxF : Nat → List Char → List Char
  | 0, s => s
  | _ + 1, [] => []
  | fuel + 1, a :: b :: t =>
    if a = '*' ∧ b = '*' then
      match boldClose t with
      | some g =>
        "<strong>".data ++ t.take g ++ "</strong>".data ++ boldAuxF fuel (t.drop (g + 2))
      | none => a :: boldAuxF fuel (b :: t)
    else a :: boldAuxF fuel (b :: t)
  | fuel + 1, a :: t => a :: boldAuxF fuel t

/-- Length of the greedy match of `(.+((\r?\n.+)*))` starting at `s`: a non-empty run
of `.`-matchable characters, extended across single (optionally CR-prefixed)
newlines into further non-empty runs. -/
def paraLenF : Nat → List Char → Nat
  | 0, _ => 0
  | fuel + 1, s =>
    let d := (s.takeWhile isDotChar).length
    match s.drop d with
    | '\r' :: '\n' :: c :: t => if isDotChar c then d + 2 + paraLenF fuel (c :: t) else d
    | '\n' :: c :: t => if isDotChar c then d + 1 + paraLenF fuel (c :: t) else d
    | _ => d

/-- One global pass of `.replace(/(.+((\r?\n.+)*))/g, '<p>$1</p>')` (paragraphs);
unmatched line terminators pass through unchanged. -/
def paraAuxF : Nat → List Char → List Char
  | 0, s => s
  | _ + 1, [] => []
  | fuel + 1, c :: t =>
    if isDotChar c then
      let n := paraLenF (t.length + 1) (c :: t)
      "<p>".data ++ (c :: t).take n ++ "</p>".data ++ paraAuxF fuel ((c :: t).drop n)
    else c :: paraAuxF fuel t

/-- `Jamments.parseMd`: the six global replacements applied in source order —
codeblock, inline code, link, italic, bold, paragraph. -/
def parseMdL (s : List Char) : List Char :=
  let s1 := cbAuxF (s.length + 1) s
  let s2 := codeAuxF (s1.length + 1) s1
  let s3 := linkAuxF (s2.length + 1) s2
  let s4 := italAuxF (s3.length + 1) s3
  let s5 := boldAuxF (s4.length + 1) s4
  paraAuxF (s5.length + 1) s5

/-- String-level `Jamments.parseMd`. -/
def parseMd (s : String) : String := ⟨parseMdL s.data⟩

/-! ### Helper lemmas -/

theorem engineLe_iff (a b : CommentRec) :
    engineLe a b ↔ a.submitted_at ≤ b.submitted_at := by
  unfold engineLe jsCmp
  split <;> omega

instance : IsTotal CommentRec engineLe :=
  ⟨fun a b => by simp only [engineLe_iff]; omega⟩

instance : IsTrans CommentRec engineLe :=
  ⟨fun a b c hab hbc => by
    simp only [engineLe_iff] at hab hbc ⊢
    omega⟩

theorem sortComments_perm (l : List CommentRec) : List.Perm (sortComments l) l :=
  List.perm_insertionSort engineLe l

theorem sortComments_pairwise (l : List CommentRec) :
    (sortComments l).Pairwise engineLe :=
  List.sorted_insertionSort engineLe l

theorem specLe_iff_engineLe {c b : CommentRec} {k j : Nat} (h : k < j) :
    specLe (c, k) (b, j) ↔ engineLe c b := by
  simp only [specLe, engineLe_iff]
  omega

theorem decorate_snd_le : ∀ {l : List CommentRec} {k : Nat} (p : CommentRec × Nat),
    p ∈ decorate l k → k ≤ p.2
  | [], _, p, h => by simp [decorate] at h
  | c :: t, k, p, h => by
    rw [decorate, List.mem_cons] at h
    rcases h with h | h
    · subst h; exact Nat.le_refl k
    · exact Nat.le_of_succ_le (decorate_snd_le p h)

theorem map_fst_orderedInsert (c : CommentRec) (k : Nat) :
    ∀ (d : List (CommentRec × Nat)), (∀ p ∈ d, k < p.2) →
      (List.orderedInsert specLe (c, k) d).map Prod.fst
        = List.orderedInsert engineLe c (d.map Prod.fst)
  | [], _ => rfl
  | q :: d', hd => by
    have hq : k < q.2 := hd q (List.mem_cons_self q d')
    have hiff : specLe (c, k) q ↔ engineLe c q.1 := specLe_iff_engineLe hq
    by_cases hs : engineLe c q.1
    · rw [List.orderedInsert, if_pos (hiff.mpr hs), List.map_cons, List.map_cons,
        List.orderedInsert, if_pos hs]
    · rw [List.orderedInsert, if_neg (fun hh => hs (hiff.mp hh)), List.map_cons,
        List.map_cons, List.orderedInsert, if_neg hs,
        map_fst_orderedInsert c k d' (fun p hp => hd p (List.mem_cons_of_mem q hp))]

theorem map_fst_insertionSort_decorate :
    ∀ (l : List CommentRec) (k : Nat),
      ((decorate l k).insertionSort specLe).map Prod.fst = l.insertionSort engineLe
  | [], _ => rfl
  | c :: t, k => by
    rw [decorate, List.insertionSort, List.insertionSort,
      map_fst_orderedInsert c k _ (fun p hp => ?_),
      map_fst_insertionSort_decorate t (k + 1)]
    have hmem : p ∈ decorate t (k + 1) :=
      (List.perm_insertionSort specLe (decorate t (k + 1))).mem_iff.mp hp
    exact Nat.lt_of_succ_le (decorate_snd_le p hmem)

theorem specStableChrono_eq_sortComments (l : List CommentRec) :
    specStableChrono l = sortComments l :=
  map_fst_insertionSort_decorate l 0

/-! ### Claims -/

/-- C1: for every input array of comment records whose parent references all resolve,
the forest returned by `getComments` is chronologically ordered at every sibling
level: the sorted sequence equals the spec's stable chronological reordering of the
input; the root list and every `children` list are subsequences of it (so sibling
order, ties included, is inherited from the stable chronological order), and along
each such list `submitted_at` is nondecreasing. -/
theorem c1_sibling_chronological (input : List CommentRec)
    (hres : parentsResolve input = true) :
    sortComments input = specStableChrono input ∧
    (rootsOf (sortComments input)).Pairwise
      (fun a b => a.submitted_at ≤ b.submitted_at) ∧
    (∀ i, (childrenOfId (sortComments input) i).Pairwise
      (fun a b => a.submitted_at ≤ b.submitted_at)) ∧
    (rootsOf (sortComments input)).Sublist (specStableChrono input) ∧
    (∀ i, (childrenOfId (sortComments input) i).Sublist (specStableChrono input)) := by
  have heq : specStableChrono input = sortComments input :=
    specStableChrono_eq_sortComments input
  have hpw : (sortComments input).Pairwise
      (fun a b => a.submitted_at ≤ b.submitted_at) :=
    (sortComments_pairwise input).imp (fun h => (engineLe_iff _ _).mp h)
  refine ⟨heq.symm, hpw.filter _, fun i => hpw.filter _, ?_, fun i => ?_⟩
  · rw [heq]; exact List.filter_sublist _
  · rw [heq]; exact List.filter_sublist _

/-- Witness for C1 at a concrete input (a root and two replies tied on timestamp). -/
theorem c1_witness :
    parentsResolve [⟨"b", some "a", 5⟩, ⟨"a", none, 3⟩, ⟨"c", some "a", 5⟩] = true ∧
    (sortComments [⟨"b", some "a", 5⟩, ⟨"a", none, 3⟩, ⟨"c", some "a", 5⟩]
        = specStableChrono [⟨"b", some "a", 5⟩, ⟨"a", none, 3⟩, ⟨"c", some "a", 5⟩] ∧
      (rootsOf (sortComments [⟨"b", some "a", 5⟩, ⟨"a", none, 3⟩, ⟨"c", some "a", 5⟩])).Pairwise
        (fun a b => a.submitted_at ≤ b.submitted_at) ∧
      (∀ i, (childrenOfId (sortComments
          [⟨"b", some "a", 5⟩, ⟨"a", none, 3⟩, ⟨"c", some "a", 5⟩]) i).Pairwise
        (fun a b => a.submitted_at ≤ b.submitted_at)) ∧
      (rootsOf (sortComments [⟨"b", some "a", 5⟩, ⟨"a", none, 3⟩, ⟨"c", some "a", 5⟩])).Sublist
        (specStableChrono [⟨"b", some "a", 5⟩, ⟨"a", none, 3⟩, ⟨"c", some "a", 5⟩]) ∧
      (∀ i, (childrenOfId (sortComments
          [⟨"b", some "a", 5⟩, ⟨"a", none, 3⟩, ⟨"c", some "a", 5⟩]) i).Sublist
        (specStableChrono [⟨"b", some "a", 5⟩, ⟨"a", none, 3⟩, ⟨"c", some "a", 5⟩]))) :=
  ⟨by decide, c1_sibling_chronological _ (by decide)⟩

/-- C4 counterexample: with `endpoint = "https://api.example.com"`,
`cachedFilesURI = "static"`, the call `getComments("Hello World")` does NOT target
`https://api.example.com/static/hello_world.json`: `cleanSlug` replaces only
slashes, never spaces. -/
theorem c4_counterexample :
    getCommentsUrl "https://api.example.com" "static" "Hello World"
      ≠ "https://api.example.com/static/hello_world.json" := by
  decide

/-- C4 amended: the request targets exactly
`https://api.example.com/static/hello world.json` (the space survives slug
normalization; only slashes become underscores). -/
theorem c4_url :
    getCommentsUrl "https://api.example.com" "static" "Hello World"
      = "https://api.example.com/static/hello world.json" := by
  decide

/-- C5: `cleanSlug` lower-cases, strips one leading and one trailing slash, replaces
remaining slashes by underscores, then trims; in particular
`cleanSlug "/My-Post/Sub/" = "my-post_sub"` and
`cleanSlug "Already_Clean" = "already_clean"`. -/
theorem c5_cleanSlug :
    cleanSlug "/My-Post/Sub/" = "my-post_sub" ∧
    cleanSlug "Already_Clean" = "already_clean" ∧
    ∀ s : String,
      cleanSlug s
        = ⟨jsTrim (slashToUnderscore (stripEdgeSlashes (s.data.map Char.toLower)))⟩ :=
  ⟨by decide, by decide, fun s => rfl⟩

/-- C6 (code-bug evidence): on the spec's input the italic pass consumes the `**`
markers before the bold pass runs, so `parseMd` yields empty `<i></i>` pairs around
plain `bold` instead of a `<strong>` element. -/
theorem c6_parseMd_eval :
    parseMd "**bold** and *italic*" = "<p><i></i>bold<i></i> and <i>italic</i></p>" ∧
    parseMd "**bold** and *italic*" ≠ "<p><strong>bold</strong> and <i>italic</i></p>" := by
  constructor
  · decide
  · decide

/-- C7: one pass of `escapeHtml` maps each of the five special characters to its
entity independently, leaves every other character unchanged, and converts
`<b>"x"</b>` to `&lt;b&gt;&quot;x&quot;&lt;/b&gt;`. -/
theorem c7_escapeHtml :
    escapeHtml "<b>\"x\"</b>" = "&lt;b&gt;&quot;x&quot;&lt;/b&gt;" ∧
    (∀ s : String, escapeHtml s = ⟨s.data.flatMap escMap⟩) ∧
    (∀ c : Char, c ≠ '&' → c ≠ '<' → c ≠ '>' → c ≠ Char.ofNat 34 →
      c ≠ Char.ofNat 39 → escMap c = [c]) :=
  ⟨by decide, fun s => rfl,
   fun c h1 h2 h3 h4 h5 => by simp [escMap, h1, h2, h3, h4, h5]⟩

/-- Witness for C7: the unchanged-character clause applied at `'x'`, together with
the concrete single-pass conversion. -/
theorem c7_witness :
    escMap 'x' = ['x'] ∧
    escapeHtml "<b>\"x\"</b>" = "&lt;b&gt;&quot;x&quot;&lt;/b&gt;" :=
  ⟨c7_escapeHtml.2.2 'x' (by decide) (by decide) (by decide) (by decide) (by decide),
   c7_escapeHtml.1⟩

/-- C8: `escapeHtml` is not idempotent — re-escaping doubles the ampersands the
first pass introduced. -/
theorem c8_not_idempotent :
    ∃ x : String, escapeHtml (escapeHtml x) ≠ escapeHtml x :=
  ⟨"&", by decide⟩

/-- C9: for every mutating operation (`postComment`, `updateComment`,
`deleteComment`, `validateComment`, `updateNewCommentsSubscription`), a non-2xx
response rejects with the raw response body text as the error value and a 2xx
response resolves with no payload. -/
theorem c9_mutating_outcomes
    (endpoint slug comment name email parentId commentId secret articleId userId : String)
    (subscribe : Bool) (req : JsRequest) (r : JsResponse)
    (hreq : req ∈ [postCommentReq endpoint slug comment name email parentId,
      updateCommentReq endpoint commentId secret comment,
      deleteCommentReq endpoint commentId secret,
      validateCommentReq endpoint commentId secret,
      updateNewCommentsSubscriptionReq endpoint articleId userId secret subscribe]) :
    (resOk r = false → runMutating req r = Except.error r.bodyText) ∧
    (resOk r = true → runMutating req r = Except.ok ()) := by
  constructor <;> intro h <;> simp [runMutating, ajaxComplete, h]

/-- Witness for C9: a 404 rejects `postComment` with the body text, a 204 resolves
`validateComment`. -/
theorem c9_witness :
    runMutating (postCommentReq "e" "s" "c" "n" "m" "p") ⟨404, "oops"⟩
        = Except.error "oops" ∧
    runMutating (validateCommentReq "e" "i" "sec") ⟨204, ""⟩ = Except.ok () :=
  ⟨(c9_mutating_outcomes "e" "s" "c" "n" "m" "p" "i" "sec" "a" "u" true
      (postCommentReq "e" "s" "c" "n" "m" "p") ⟨404, "oops"⟩ (by decide)).1 (by decide),
   (c9_mutating_outcomes "e" "s" "c" "n" "m" "p" "i" "sec" "a" "u" true
      (validateCommentReq "e" "i" "sec") ⟨204, ""⟩ (by decide)).2 (by decide)⟩

/-! ### Helper lemmas for slug idempotence -/

theorem char_toNat_ofNat (m : Nat) (h : m.isValidChar) : (Char.ofNat m).toNat = m := by
  unfold Char.ofNat
  rw [dif_pos h]
  rfl

theorem toLower_toLower (c : Char) : (Char.toLower c).toLower = Char.toLower c := by
  by_cases h : c.toNat ≥ 65 ∧ c.toNat ≤ 90
  · have hv : (Char.ofNat (c.toNat + 32)).toNat = c.toNat + 32 :=
      char_toNat_ofNat _ (Or.inl (by omega))
    simp only [Char.toLower, if_pos h, hv]
    rw [if_neg (by omega)]
  · simp only [Char.toLower, if_neg h]

theorem dropWhile_head_not {α : Type} (p : α → Bool) :
    ∀ (l : List α) (a : α), (l.dropWhile p).head? = some a → p a = false := by
  intro l
  induction l with
  | nil => intro a h; simp [List.dropWhile] at h
  | cons x t ih =>
    intro a h
    rw [List.dropWhile_cons] at h
    by_cases hx : p x = true
    · rw [if_pos hx] at h
      exact ih a h
    · rw [if_neg hx] at h
      simp only [List.head?_cons, Option.some.injEq] at h
      subst h
      simp only [Bool.not_eq_true] at hx
      exact hx

theorem dropWhile_eq_self_of_head {α : Type} (p : α → Bool) (l : List α)
    (h : ∀ a, l.head? = some a → p a = false) : l.dropWhile p = l := by
  cases l with
  | nil => rfl
  | cons x t => rw [List.dropWhile_cons, if_neg (by simp [h x rfl])]

theorem dropWhile_idem {α : Type} (p : α → Bool) (l : List α) :
    (l.dropWhile p).dropWhile p = l.dropWhile p :=
  dropWhile_eq_self_of_head p _ (dropWhile_head_not p l)

theorem getLast?_of_suffix {α : Type} {l₁ l₂ : List α}
    (h : List.IsSuffix l₁ l₂) (hne : l₁ ≠ []) : l₂.getLast? = l₁.getLast? := by
  obtain ⟨t, rfl⟩ := h
  rw [List.getLast?_append]
  cases hl : l₁.getLast? with
  | none => exact absurd (List.getLast?_eq_none_iff.mp hl) hne
  | some a => rfl

theorem jsTrim_idem (l : List Char) : jsTrim (jsTrim l) = jsTrim l := by
  have h1 : (((l.dropWhile isJsSpace).reverse.dropWhile isJsSpace).reverse).dropWhile isJsSpace
      = ((l.dropWhile isJsSpace).reverse.dropWhile isJsSpace).reverse := by
    apply dropWhile_eq_self_of_head
    intro a ha
    rw [← List.getLast?_eq_head?_reverse] at ha
    have hBne : (l.dropWhile isJsSpace).reverse.dropWhile isJsSpace ≠ [] := by
      intro hnil
      rw [hnil] at ha
      simp at ha
    rw [← getLast?_of_suffix (List.dropWhile_suffix isJsSpace) hBne] at ha
    rw [List.getLast?_eq_head?_reverse, List.reverse_reverse] at ha
    exact dropWhile_head_not isJsSpace l a ha
  unfold jsTrim
  rw [h1, List.reverse_reverse, dropWhile_idem]

theorem mem_of_mem_jsTrim {a : Char} {l : List Char} (h : a ∈ jsTrim l) : a ∈ l := by
  unfold jsTrim at h
  rw [List.mem_reverse] at h
  have h2 : a ∈ (l.dropWhile isJsSpace).reverse := List.dropWhile_subset isJsSpace h
  rw [List.mem_reverse] at h2
  exact List.dropWhile_subset isJsSpace h2

theorem dropLeadingSlash_subset (s : List Char) : dropLeadingSlash s ⊆ s := by
  unfold dropLeadingSlash
  split
  · exact fun a ha => List.mem_cons_of_mem _ ha
  · exact fun a ha => ha

theorem dropTrailingSlash_subset (s : List Char) : dropTrailingSlash s ⊆ s := by
  unfold dropTrailingSlash
  split
  · rename_i t heq
    intro a ha
    rw [List.mem_reverse] at ha
    have h2 : a ∈ s.reverse := by
      rw [heq]
      exact List.mem_cons_of_mem _ ha
    rwa [List.mem_reverse] at h2
  · exact fun a ha => ha

theorem stripEdgeSlashes_subset (s : List Char) : stripEdgeSlashes s ⊆ s :=
  fun a ha => dropLeadingSlash_subset s (dropTrailingSlash_subset _ ha)

theorem dropLeadingSlash_eq_self {s : List Char} (h : ∀ a ∈ s, a ≠ '/') :
    dropLeadingSlash s = s := by
  unfold dropLeadingSlash
  split
  · exact absurd rfl (h '/' (List.mem_cons_self _ _))
  · rfl

theorem dropTrailingSlash_eq_self {s : List Char} (h : ∀ a ∈ s, a ≠ '/') :
    dropTrailingSlash s = s := by
  unfold dropTrailingSlash
  split
  · rename_i t heq
    have hmem : ('/' : Char) ∈ s := by
      rw [← List.mem_reverse, heq]
      exact List.mem_cons_self _ _
    exact absurd rfl (h '/' hmem)
  · rfl

theorem stripEdgeSlashes_eq_self {s : List Char} (h : ∀ a ∈ s, a ≠ '/') :
    stripEdgeSlashes s = s := by
  unfold stripEdgeSlashes
  rw [dropLeadingSlash_eq_self h, dropTrailingSlash_eq_self h]

theorem map_eq_self_of {α : Type} {f : α → α} :
    ∀ {l : List α}, (∀ a ∈ l, f a = a) → l.map f = l
  | [], _ => rfl
  | x :: t, h => by
    rw [List.map_cons, h x (List.mem_cons_self x t),
      map_eq_self_of (fun a ha => h a (List.mem_cons_of_mem x ha))]

theorem cleanSlugL_chars {s : List Char} :
    ∀ a ∈ cleanSlugL s, Char.toLower a = a ∧ a ≠ '/' := by
  intro a ha
  unfold cleanSlugL at ha
  have ha1 : a ∈ slashToUnderscore (stripEdgeSlashes (s.map Char.toLower)) :=
    mem_of_mem_jsTrim ha
  unfold slashToUnderscore at ha1
  rw [List.mem_map] at ha1
  obtain ⟨b, hb, hba⟩ := ha1
  have hbmem : b ∈ s.map Char.toLower := stripEdgeSlashes_subset _ hb
  rw [List.mem_map] at hbmem
  obtain ⟨e, -, hbe⟩ := hbmem
  by_cases hslash : b = '/'
  · rw [hslash, if_pos rfl] at hba
    refine ⟨?_, ?_⟩ <;> rw [← hba] <;> decide
  · rw [if_neg hslash] at hba
    subst hba
    exact ⟨by rw [← hbe]; exact toLower_toLower e, hslash⟩

/-- C10: `cleanSlug` is idempotent — its output is already lower-case, slash-free and
trimmed, so a second pass changes nothing. -/
theorem c10_cleanSlug_idempotent (s : String) :
    cleanSlug (cleanSlug s) = cleanSlug s := by
  show (⟨cleanSlugL (cleanSlugL s.data)⟩ : String) = ⟨cleanSlugL s.data⟩
  refine congrArg String.mk ?_
  have ht := cleanSlugL_chars (s := s.data)
  conv_lhs => rw [cleanSlugL]
  rw [map_eq_self_of (fun a ha => (ht a ha).1),
    stripEdgeSlashes_eq_self (fun a ha => (ht a ha).2)]
  rw [show slashToUnderscore (cleanSlugL s.data) = cleanSlugL s.data from
    map_eq_self_of (fun a ha => if_neg ((ht a ha).2))]
  exact jsTrim_idem _

/-! ### Helper lemmas for the hash and the forest shape -/

theorem hashLookup_insertAll_mem {h : CHash} {cs : List CommentRec} {i : String}
    (hi : i ∈ cs.map (fun c => c.id)) :
    ∃ c, c ∈ cs ∧ c.id = i ∧ hashLookup (hashInsertAll h cs) i = some c := by
  unfold hashLookup hashInsertAll
  have hsome : (((cs.map fun c => (c.id, c)).reverse).find? fun e => e.1 == i).isSome := by
    rw [List.find?_isSome]
    rw [List.mem_map] at hi
    obtain ⟨c, hc, hci⟩ := hi
    refine ⟨(c.id, c), ?_, by simp [hci]⟩
    rw [List.mem_reverse, List.mem_map]
    exact ⟨c, hc, rfl⟩
  obtain ⟨e, he⟩ := Option.isSome_iff_exists.mp hsome
  rw [List.find?_append, he]
  have hmem := List.mem_of_find?_eq_some he
  rw [List.mem_reverse, List.mem_map] at hmem
  obtain ⟨c, hc, hce⟩ := hmem
  have hp := List.find?_some he
  rw [← hce] at hp
  refine ⟨c, hc, by simpa using hp, ?_⟩
  rw [← hce]
  rfl

theorem hashLookup_insertAll_not_mem {h : CHash} {cs : List CommentRec} {i : String}
    (hi : i ∉ cs.map (fun c => c.id)) :
    hashLookup (hashInsertAll h cs) i = hashLookup h i := by
  unfold hashLookup hashInsertAll
  rw [List.find?_append]
  have hnone : (((cs.map fun c => (c.id, c)).reverse).find? fun e => e.1 == i) = none := by
    rw [List.find?_eq_none]
    intro x hx
    rw [List.mem_reverse, List.mem_map] at hx
    obtain ⟨c, hc, hce⟩ := hx
    rw [← hce]
    simp only [beq_iff_eq]
    intro heq
    exact hi (List.mem_map.mpr ⟨c, hc, heq⟩)
  rw [hnone]
  rfl

theorem ids_sortComments {input : List CommentRec} {p : String} :
    p ∈ input.map (fun d => d.id) ↔ p ∈ (sortComments input).map (fun d => d.id) := by
  constructor <;> intro hp <;> rw [List.mem_map] at hp ⊢ <;> obtain ⟨d, hd, hdp⟩ := hp
  · exact ⟨d, (sortComments_perm input).mem_iff.mpr hd, hdp⟩
  · exact ⟨d, (sortComments_perm input).mem_iff.mp hd, hdp⟩

theorem parentTruthy_some {c : CommentRec} (ht : parentTruthy c = true) :
    c.parent_id = some (parentKey c) := by
  unfold parentTruthy at ht
  unfold parentKey
  cases hp : c.parent_id with
  | none => rw [hp] at ht; simp at ht
  | some p => rfl

theorem resolve_parentKey {input : List CommentRec} {c : CommentRec}
    (hres : parentsResolve input = true) (hc : c ∈ input) (ht : parentTruthy c = true) :
    parentKey c ∈ input.map (fun d => d.id) := by
  unfold parentsResolve at hres
  rw [List.all_eq_true] at hres
  have h2 := hres c hc
  rw [parentTruthy_some ht] at h2
  simp only [List.contains, List.elem_iff] at h2
  exact h2

theorem noDangling_of_resolve {h : CHash} {input : List CommentRec}
    (hres : parentsResolve input = true) : noDangling h input = true := by
  unfold noDangling
  rw [List.all_eq_true]
  intro c hc
  by_cases ht : parentTruthy c = true
  · have hcin : c ∈ input := (sortComments_perm input).mem_iff.mp hc
    have hpmem := resolve_parentKey hres hcin ht
    rw [ids_sortComments] at hpmem
    obtain ⟨d, hd, hdi, hlook⟩ := hashLookup_insertAll_mem (h := h) hpmem
    unfold afterHash
    rw [hlook]
    simp
  · simp only [Bool.not_eq_true] at ht
    simp [ht]

theorem rootsPos_mem_iff {l : List CommentRec} {j : Nat} :
    j ∈ rootsPos l ↔ j < l.length ∧ parentTruthy (recAt l j) = false := by
  unfold rootsPos
  rw [List.mem_filter, List.mem_range]
  simp

theorem childPos_mem_iff {l : List CommentRec} {o j : Nat} :
    j ∈ childPos l o ↔
      lastOccIdx l (recAt l o).id = some o ∧ j < l.length ∧
        parentTruthy (recAt l j) = true ∧ parentKey (recAt l j) = (recAt l o).id := by
  unfold childPos
  by_cases hcond : lastOccIdx l (recAt l o).id = some o
  · rw [if_pos hcond, List.mem_filter, List.mem_range]
    simp [hcond]
  · rw [if_neg hcond]
    simp [hcond]

theorem lastOccIdx_spec {l : List CommentRec} {p : String} {o : Nat}
    (h : lastOccIdx l p = some o) : o < l.length ∧ (recAt l o).id = p := by
  unfold lastOccIdx at h
  rw [List.getLast?_eq_some_iff] at h
  obtain ⟨ys, hys⟩ := h
  have hmem : o ∈ (List.range l.length).filter fun k => (recAt l k).id == p := by
    rw [hys]
    exact List.mem_append.mpr (Or.inr (List.mem_cons_self _ _))
  rw [List.mem_filter, List.mem_range] at hmem
  exact ⟨hmem.1, by simpa using hmem.2⟩

theorem lastOccIdx_exists {l : List CommentRec} {p : String}
    (h : p ∈ l.map fun d => d.id) : ∃ o, lastOccIdx l p = some o := by
  rw [List.mem_map] at h
  obtain ⟨d, hd, hdp⟩ := h
  rw [List.mem_iff_getElem] at hd
  obtain ⟨k, hk, hkd⟩ := hd
  have hkfil : k ∈ (List.range l.length).filter fun k => (recAt l k).id == p := by
    rw [List.mem_filter, List.mem_range]
    refine ⟨hk, ?_⟩
    have hrk : recAt l k = d := by
      unfold recAt
      rw [List.getElem?_eq_getElem hk, hkd]
      rfl
    rw [hrk, hdp]
    simp
  have hne := List.ne_nil_of_mem hkfil
  unfold lastOccIdx
  exact ⟨_, List.getLast?_eq_getLast _ hne⟩

/-- C2: for every input whose non-null parent ids all match some comment id of the
same array, the `getComments` call completes (no dangling lookup and no thrown
`TypeError`), every input comment id is mapped in the resulting index to one of the
input comments bearing that id, and every position of the sorted array is placed
exactly once: either in the root forest (falsy parent) or in the `children` array
of exactly one owner object. -/
theorem c2_index_and_unique_placement (h : CHash) (input : List CommentRec)
    (hres : parentsResolve input = true) :
    getComments h input = some (afterHash h input, rootsOf (sortComments input)) ∧
    (∀ i ∈ input.map (fun c => c.id),
      ∃ c, hashLookup (afterHash h input) i = some c ∧ c ∈ input ∧ c.id = i) ∧
    (∀ j, j < (sortComments input).length →
      (j ∈ rootsPos (sortComments input) ∧ ∀ o, j ∉ childPos (sortComments input) o) ∨
      (j ∉ rootsPos (sortComments input) ∧
        ∃! o, j ∈ childPos (sortComments input) o)) := by
  refine ⟨?_, ?_, ?_⟩
  · unfold getComments
    rw [if_pos (noDangling_of_resolve hres)]
  · intro i hi
    rw [ids_sortComments] at hi
    obtain ⟨c, hc, hci, hlook⟩ := hashLookup_insertAll_mem (h := h) hi
    exact ⟨c, by unfold afterHash; rw [hlook], (sortComments_perm input).mem_iff.mp hc, hci⟩
  · intro j hj
    by_cases ht : parentTruthy (recAt (sortComments input) j) = true
    · right
      have hcmem : recAt (sortComments input) j ∈ input := by
        unfold recAt
        rw [List.getElem?_eq_getElem hj]
        exact (sortComments_perm input).mem_iff.mp (List.getElem_mem hj)
      have hpmem := resolve_parentKey hres hcmem ht
      rw [ids_sortComments] at hpmem
      obtain ⟨o, ho⟩ := lastOccIdx_exists hpmem
      have hspec := lastOccIdx_spec ho
      refine ⟨fun hmem => ?_, o, ?_, ?_⟩
      · rw [rootsPos_mem_iff] at hmem
        rw [ht] at hmem
        simp at hmem
      · show j ∈ childPos (sortComments input) o
        rw [childPos_mem_iff, hspec.2]
        exact ⟨ho, hj, ht, rfl⟩
      · intro o' ho'
        have ho2 : j ∈ childPos (sortComments input) o' := ho'
        rw [childPos_mem_iff] at ho2
        rw [ho2.2.2.2] at ho
        exact (Option.some.injEq _ _).mp (ho2.1.symm.trans ho)
    · left
      simp only [Bool.not_eq_true] at ht
      refine ⟨rootsPos_mem_iff.mpr ⟨hj, ht⟩, fun o hmem => ?_⟩
      rw [childPos_mem_iff] at hmem
      rw [ht] at hmem
      simp at hmem

/-- Witness for C2 at a concrete input (one root and one reply). -/
theorem c2_witness :
    parentsResolve [⟨"a", none, 1⟩, ⟨"b", some "a", 2⟩] = true ∧
    (getComments [] [⟨"a", none, 1⟩, ⟨"b", some "a", 2⟩]
        = some (afterHash [] [⟨"a", none, 1⟩, ⟨"b", some "a", 2⟩],
            rootsOf (sortComments [⟨"a", none, 1⟩, ⟨"b", some "a", 2⟩])) ∧
      (∀ i ∈ ([⟨"a", none, 1⟩, ⟨"b", some "a", 2⟩] : List CommentRec).map (fun c => c.id),
        ∃ c, hashLookup (afterHash [] [⟨"a", none, 1⟩, ⟨"b", some "a", 2⟩]) i = some c ∧
          c ∈ ([⟨"a", none, 1⟩, ⟨"b", some "a", 2⟩] : List CommentRec) ∧ c.id = i) ∧
      (∀ j, j < (sortComments [⟨"a", none, 1⟩, ⟨"b", some "a", 2⟩]).length →
        (j ∈ rootsPos (sortComments [⟨"a", none, 1⟩, ⟨"b", some "a", 2⟩]) ∧
          ∀ o, j ∉ childPos (sortComments [⟨"a", none, 1⟩, ⟨"b", some "a", 2⟩]) o) ∨
        (j ∉ rootsPos (sortComments [⟨"a", none, 1⟩, ⟨"b", some "a", 2⟩]) ∧
          ∃! o, j ∈ childPos (sortComments [⟨"a", none, 1⟩, ⟨"b", some "a", 2⟩]) o))) :=
  ⟨by decide, c2_index_and_unique_placement [] _ (by decide)⟩

/-- C3 counterexample: two successive successful `getComments` calls on one instance
(first fetching only id "a", then only id "b").  The claim says only the new call's
ids survive, but the entry for "a" is still present after the second call —
`getComments` never clears `this.commentsHash`. -/
theorem c3_counterexample :
    getComments [] [⟨"a", none, 0⟩]
        = some (afterHash [] [⟨"a", none, 0⟩], [⟨"a", none, 0⟩]) ∧
    getComments (afterHash [] [⟨"a", none, 0⟩]) [⟨"b", none, 0⟩]
        = some (afterHash (afterHash [] [⟨"a", none, 0⟩]) [⟨"b", none, 0⟩],
            [⟨"b", none, 0⟩]) ∧
    hashLookup (afterHash (afterHash [] [⟨"a", none, 0⟩]) [⟨"b", none, 0⟩]) "a"
        = some ⟨"a", none, 0⟩ := by
  refine ⟨?_, ?_, ?_⟩ <;> decide

/-- C3 amended: the index is cumulative, not replaced.  A successful `getComments`
call adds or overwrites a binding for every fetched id, while every binding whose
id is absent from the new input survives unchanged; the hash is cleared only at
construction. -/
theorem c3_index_cumulative (h : CHash) (input : List CommentRec)
    (hnd : noDangling h input = true) :
    getComments h input = some (afterHash h input, rootsOf (sortComments input)) ∧
    (∀ i, i ∉ input.map (fun c => c.id) →
      hashLookup (afterHash h input) i = hashLookup h i) ∧
    (∀ i ∈ input.map (fun c => c.id),
      ∃ c, hashLookup (afterHash h input) i = some c ∧ c ∈ input ∧ c.id = i) := by
  refine ⟨?_, ?_, ?_⟩
  · unfold getComments
    rw [if_pos hnd]
  · intro i hi
    unfold afterHash
    apply hashLookup_insertAll_not_mem
    intro hmem
    exact hi (ids_sortComments.mpr hmem)
  · intro i hi
    rw [ids_sortComments] at hi
    obtain ⟨c, hc, hci, hlook⟩ := hashLookup_insertAll_mem (h := h) hi
    exact ⟨c, by unfold afterHash; rw [hlook], (sortComments_perm input).mem_iff.mp hc, hci⟩

/-- Witness for C3's amended statement: a second call on a non-empty hash. -/
theorem c3_witness :
    noDangling (afterHash [] [⟨"a", none, 0⟩]) [⟨"b", none, 0⟩] = true ∧
    (getComments (afterHash [] [⟨"a", none, 0⟩]) [⟨"b", none, 0⟩]
        = some (afterHash (afterHash [] [⟨"a", none, 0⟩]) [⟨"b", none, 0⟩],
            rootsOf (sortComments [⟨"b", none, 0⟩])) ∧
      (∀ i, i ∉ ([⟨"b", none, 0⟩] : List CommentRec).map (fun c => c.id) →
        hashLookup (afterHash (afterHash [] [⟨"a", none, 0⟩]) [⟨"b", none, 0⟩]) i
          = hashLookup (afterHash [] [⟨"a", none, 0⟩]) i) ∧
      (∀ i ∈ ([⟨"b", none, 0⟩] : List CommentRec).map (fun c => c.id),
        ∃ c, hashLookup (afterHash (afterHash [] [⟨"a", none, 0⟩]) [⟨"b", none, 0⟩]) i
            = some c ∧ c ∈ ([⟨"b", none, 0⟩] : List CommentRec) ∧ c.id = i)) :=
  ⟨by decide, c3_index_cumulative (afterHash [] [⟨"a", none, 0⟩]) [⟨"b", none, 0⟩] (by decide)⟩
